import Mathlib

/-!
Verification of the s3_microbench.py benchmarking driver.

Shallow embedding conventions:
* Python strings are modelled as lists of characters.
* Python ints are modelled as Nat or Int; Python floats appearing in the
  throughput computation are modelled as exact rationals extended with a
  positive-infinity marker, mirroring the explicit infinity branch of the code.
* The seeded pseudo-random byte generator of write_local_file is modelled as an
  arbitrary deterministic byte stream, indexed by the number of bytes already
  drawn; random.randint is modelled as a function of an arbitrary oracle value
  whose result always lies in the requested interval.
* The ThreadPoolExecutor / as_completed collection loops are modelled by
  folding over an arbitrary permutation of the submitted keys (the completion
  order).
-/

/-- Mirror of the Stats dataclass: a label, a total byte count and an elapsed
wall-clock duration in seconds. -/
structure Stats where
  label : List Char
  bytes_total : ℤ
  seconds : ℚ

/-- A Python float value as produced by the throughput computation: either a
finite (exact) value or positive infinity. -/
inductive PyFloat where
  | finite : ℚ → PyFloat
  | inf : PyFloat
deriving DecidableEq

/-- Mirror of Stats.mib: bytes_total / (1024 * 1024). -/
def Stats.mib (s : Stats) : ℚ :=
  (s.bytes_total : ℚ) / (1024 * 1024)

/-- Mirror of Stats.mib_per_s: mib / seconds when seconds > 0, else inf. -/
def Stats.mib_per_s (s : Stats) : PyFloat :=
  if 0 < s.seconds then PyFloat.finite (s.mib / s.seconds) else PyFloat.inf

/-- A single delete_objects request as issued by s3_delete_many: the list of
keys of the batch and the Quiet flag sent with it. -/
structure DeleteRequest (K : Type) where
  objects : List K
  quiet : Bool
deriving DecidableEq

/-- Mirror of s3_delete_many: walk the key list in slices of 1000
(for i in range(0, len(keys), 1000): chunk = keys[i:i+1000]) and issue one
delete_objects request per slice, with Quiet set to True. Returns the sequence
of requests issued, in order. -/
def s3_delete_many {K : Type} : List K → List (DeleteRequest K)
  | [] => []
  | k :: rest =>
    { objects := (k :: rest).take 1000, quiet := true } ::
      s3_delete_many ((k :: rest).drop 1000)
termination_by l => l.length
decreasing_by simp; omega

/-- C3: bulk delete issues exactly ceil(M/1000) sequential requests, each with
at most 1000 keys, together covering every key exactly once in list order, and
with the quiet flag set on every request. -/
theorem s3_delete_many_spec {K : Type} (keys : List K) :
    (s3_delete_many keys).length = (keys.length + 999) / 1000 ∧
    (∀ req ∈ s3_delete_many keys, req.objects.length ≤ 1000 ∧ req.quiet = true) ∧
    ((s3_delete_many keys).map DeleteRequest.objects).flatten = keys := by
  induction keys using s3_delete_many.induct with
  | case1 =>
    refine ⟨by simp [s3_delete_many], ?_, by simp [s3_delete_many]⟩
    intro req hreq
    simp [s3_delete_many] at hreq
  | case2 k rest ih =>
    obtain ⟨ihlen, ihmem, ihcov⟩ := ih
    refine ⟨?_, ?_, ?_⟩
    · rw [s3_delete_many]
      simp only [List.length_cons, ihlen, List.length_drop]
      omega
    · intro req hreq
      rw [s3_delete_many] at hreq
      rcases List.mem_cons.mp hreq with h | h
      · subst h
        exact ⟨by simp, rfl⟩
      · exact ihmem req h
    · rw [s3_delete_many]
      simp only [List.map_cons, List.flatten_cons, ihcov]
      exact List.take_append_drop 1000 (k :: rest)

/-- The externally visible end-of-run actions of main: issuing the remote
batch deletion of the generated keys, and removing the local artifact file. -/
inductive EndAction where
  | deleteRemote : EndAction
  | removeLocal : EndAction
deriving DecidableEq

/-- Mirror of the tail of main (the cleanup section): if args.keep is set, no
remote deletion is issued, otherwise s3_delete_many runs on the generated
keys; in either case os.remove(local_path) is then attempted (its OSError is
swallowed). Returns the actions performed, in program order. -/
def mainEndActions (keep : Bool) : List EndAction :=
  (if keep then [] else [EndAction.deleteRemote]) ++ [EndAction.removeLocal]

/-- Counterexample to C1: with the keep flag set, the run still removes the
local artifact file, so cleanup is not suppressed in its entirety. -/
theorem mainEndActions_keep_cex :
    ¬ (EndAction.deleteRemote ∉ mainEndActions true ∧
       EndAction.removeLocal ∉ mainEndActions true) := by
  decide

/-- C1 amended: the keep flag suppresses only the remote batch deletion; the
local artifact file removal is performed at the end of the run regardless of
the flag, and with keep unset both actions are performed. -/
theorem mainEndActions_spec (keep : Bool) :
    (EndAction.deleteRemote ∈ mainEndActions keep ↔ keep = false) ∧
    EndAction.removeLocal ∈ mainEndActions keep := by
  cases keep <;> decide

/-- The character of a single decimal digit, as rendered by Python's d format
specifier. -/
def digitChar (d : ℕ) : Char := Char.ofNat (48 + d)

/-- The decimal rendering of a natural number as a character list, most
significant digit first, as produced by Python's d format specifier. -/
def decRepr (i : ℕ) : List Char :=
  if i = 0 then ['0'] else ((Nat.digits 10 i).reverse).map digitChar

/-- Mirror of the 05d format specifier: the decimal rendering left-padded with
zero characters to a minimum width of 5. -/
def pad5 (i : ℕ) : List Char :=
  List.replicate (5 - (decRepr i).length) '0' ++ decRepr i

/-- One generated object key of gen_object_keys: the given prefix, the slash
separator, obj_, the 5-padded index, and the .bin suffix. -/
def objKey (pfx : List Char) (i : ℕ) : List Char :=
  pfx ++ "/obj_".data ++ pad5 i ++ ".bin".data

/-- Mirror of gen_object_keys: one key per index in range(n). -/
def gen_object_keys (pfx : List Char) (n : ℕ) : List (List Char) :=
  (List.range n).map (objKey pfx)

/-- The numeric value of a decimal digit character. -/
def charDigit (c : Char) : ℕ := c.toNat - 48

/-- The numeric value of a decimal character list, most significant digit
first; used to invert the decimal rendering. -/
def decVal (l : List Char) : ℕ :=
  Nat.ofDigits 10 (l.reverse.map charDigit)

theorem charDigit_digitChar {d : ℕ} (hd : d < 10) :
    charDigit (digitChar d) = d := by
  interval_cases d <;> decide

theorem decVal_decRepr (i : ℕ) : decVal (decRepr i) = i := by
  rcases Nat.eq_zero_or_pos i with h | h
  · subst h; decide
  · have hne : i ≠ 0 := Nat.pos_iff_ne_zero.mp h
    simp only [decVal, decRepr, if_neg hne, List.map_reverse, List.reverse_reverse,
      List.map_map]
    have : ∀ d ∈ Nat.digits 10 i, (charDigit ∘ digitChar) d = d := by
      intro d hd
      exact charDigit_digitChar (Nat.digits_lt_base (by norm_num) hd)
    rw [List.map_congr_left this, List.map_id', Nat.ofDigits_digits]

theorem ofDigits_replicate_zero (k : ℕ) :
    Nat.ofDigits 10 (List.replicate k 0) = 0 := by
  induction k with
  | zero => rfl
  | succ m ih => simp [List.replicate_succ, Nat.ofDigits_cons, ih]

theorem decVal_pad5 (i : ℕ) : decVal (pad5 i) = i := by
  have h0 : charDigit '0' = 0 := rfl
  simp only [decVal, pad5, List.reverse_append, List.reverse_replicate,
    List.map_append, List.map_replicate, h0, Nat.ofDigits_append,
    ofDigits_replicate_zero, Nat.mul_zero, Nat.add_zero]
  simpa [decVal] using decVal_decRepr i

theorem pad5_injective : Function.Injective pad5 := by
  intro i j h
  have := congrArg decVal h
  rwa [decVal_pad5, decVal_pad5] at this

theorem objKey_injective (pfx : List Char) : Function.Injective (objKey pfx) := by
  intro i j h
  simp only [objKey] at h
  have h₁ : pfx ++ "/obj_".data ++ pad5 i = pfx ++ "/obj_".data ++ pad5 j :=
    (List.append_inj' h rfl).1
  exact pad5_injective (List.append_cancel_left h₁)

/-- C6: the key generator returns exactly n pairwise-distinct keys, the key at
position i being the prefix, a slash, obj_, the index i zero-padded to 5
digits, and .bin, so the list is ordered by index strictly ascending. -/
theorem gen_object_keys_spec (pfx : List Char) (n : ℕ) (_h : 1 ≤ n) :
    (gen_object_keys pfx n).length = n ∧
    (gen_object_keys pfx n).Nodup ∧
    ∀ i, ∀ hi : i < (gen_object_keys pfx n).length,
      (gen_object_keys pfx n).get ⟨i, hi⟩ =
        pfx ++ "/obj_".data ++ pad5 i ++ ".bin".data := by
  refine ⟨by simp [gen_object_keys], ?_, ?_⟩
  · exact (List.nodup_range n).map (objKey_injective pfx)
  · intro i hi
    simp [gen_object_keys, objKey, List.get_eq_getElem]

/-- Witness for C6: with prefix p and n = 2, the generator returns 2 keys. -/
theorem gen_object_keys_spec_witness :
    (gen_object_keys "p".data 2).length = 2 :=
  (gen_object_keys_spec "p".data 2 (by decide)).1

/-- Mirror of args.prefix.rstrip applied with the slash character in main:
remove all trailing slash characters. -/
def rstripSlash (s : List Char) : List Char :=
  ((s.reverse).dropWhile (fun c => c == '/')).reverse

theorem rstripSlash_append_replicate (s : List Char) (k : ℕ) :
    rstripSlash (s ++ List.replicate k '/') = rstripSlash s := by
  simp only [rstripSlash, List.reverse_append, List.reverse_replicate]
  rw [List.dropWhile_append_of_pos]
  intro a ha
  have : a = '/' := List.eq_of_mem_replicate ha
  simp [this]

theorem rstripSlash_getLast? (s : List Char) :
    (rstripSlash s).getLast? ≠ some '/' := by
  simp only [rstripSlash, List.getLast?_reverse]
  have := List.head?_dropWhile_not (fun c => c == '/') s.reverse
  intro hcontra
  rw [hcontra] at this
  simp at this

/-- C9: trailing slashes of the prefix argument are stripped before key
generation, so prefix arguments differing only in trailing slashes give
identical key lists; every generated key is the stripped prefix followed by a
single slash and the rest of the key, and the stripped prefix never ends in a
slash, so the separator is never doubled. -/
theorem rstrip_gen_object_keys_spec (p base : List Char) (k1 k2 n : ℕ) :
    gen_object_keys (rstripSlash (base ++ List.replicate k1 '/')) n =
      gen_object_keys (rstripSlash (base ++ List.replicate k2 '/')) n ∧
    (∀ key ∈ gen_object_keys (rstripSlash p) n,
      ∃ rest, key = rstripSlash p ++ ('/' :: rest)) ∧
    (rstripSlash p).getLast? ≠ some '/' := by
  refine ⟨by rw [rstripSlash_append_replicate, rstripSlash_append_replicate], ?_,
    rstripSlash_getLast? p⟩
  intro key hkey
  obtain ⟨i, _, rfl⟩ := List.mem_map.mp hkey
  exact ⟨"obj_".data ++ pad5 i ++ ".bin".data, by simp [objKey]⟩

/-- Mirror of random.randint(a, b): given an arbitrary oracle value r drawn
from the pseudo-random source, the result is a + r mod (b - a + 1), which for
b >= a ranges over exactly the integers of the closed interval from a to b. -/
def randint (a b : ℤ) (r : ℕ) : ℤ :=
  a + (r : ℤ) % (b - a + 1)

/-- Mirror of the start-offset computation in _range_read_one: offset 0 when
size <= range_size, otherwise randint(0, size - range_size). -/
def rangeStart (size range_size : ℤ) (r : ℕ) : ℤ :=
  if size ≤ range_size then 0 else randint 0 (size - range_size) r

/-- Mirror of the end-offset computation in _range_read_one:
end = start + range_size - 1. -/
def rangeEnd (size range_size : ℤ) (r : ℕ) : ℤ :=
  rangeStart size range_size r + range_size - 1

/-- C2: every ranged read uses a start offset with 0 <= start <= size -
range_size when size > range_size, start = 0 otherwise, and requests exactly
range_size bytes, its end offset being start + range_size - 1. -/
theorem rangeStart_spec (size range_size : ℤ) (r : ℕ) :
    (range_size < size →
      0 ≤ rangeStart size range_size r ∧
      rangeStart size range_size r ≤ size - range_size) ∧
    (size ≤ range_size → rangeStart size range_size r = 0) ∧
    rangeEnd size range_size r = rangeStart size range_size r + range_size - 1 ∧
    rangeEnd size range_size r - rangeStart size range_size r + 1 = range_size := by
  refine ⟨?_, ?_, rfl, by simp [rangeEnd]; ring⟩
  · intro h
    have hnle : ¬ size ≤ range_size := not_le.mpr h
    have hpos : (0 : ℤ) < size - range_size + 1 := by omega
    have hmod₁ : 0 ≤ (r : ℤ) % (size - range_size + 1) :=
      Int.emod_nonneg _ (by omega)
    have hmod₂ : (r : ℤ) % (size - range_size + 1) < size - range_size + 1 :=
      Int.emod_lt_of_pos _ hpos
    simp only [rangeStart, if_neg hnle, randint, sub_zero, zero_add]
    omega
  · intro h
    simp [rangeStart, if_pos h]

/-- Witness for C2: for a 100-byte object, 10-byte ranges and oracle value 7,
the start offset lies between 0 and 90. -/
theorem rangeStart_spec_witness :
    0 ≤ rangeStart 100 10 7 ∧ rangeStart 100 10 7 ≤ 100 - 10 :=
  (rangeStart_spec 100 10 7).1 (by decide)

/-- C4: the derived throughput is the exact quotient (bytes_total / 1048576)
/ seconds whenever seconds > 0, and positive infinity (a value, not an
exception) whenever seconds <= 0, zero and negative included. -/
theorem mib_per_s_spec (s : Stats) :
    (0 < s.seconds →
      s.mib_per_s = PyFloat.finite (((s.bytes_total : ℚ) / 1048576) / s.seconds)) ∧
    (s.seconds ≤ 0 → s.mib_per_s = PyFloat.inf) := by
  constructor
  · intro h
    simp only [Stats.mib_per_s, Stats.mib, if_pos h]
    norm_num
  · intro h
    have : ¬ 0 < s.seconds := not_lt.mpr h
    simp only [Stats.mib_per_s, if_neg this]

/-- Witness for C4: a concrete Stats with positive elapsed time evaluates to
the finite quotient, and one with zero elapsed time evaluates to infinity. -/
theorem mib_per_s_spec_witness :
    (Stats.mk [] 2097152 2).mib_per_s = PyFloat.finite (((2097152 : ℚ) / 1048576) / 2) :=
  (mib_per_s_spec (Stats.mk [] 2097152 2)).1 (by norm_num)

/-- Mirror of the loop body of write_local_file, parameterized by the byte
stream of the seeded pseudo-random generator (stream j is the j-th byte drawn
since seeding) and by a fuel bound on loop iterations: while remaining > 0,
write a block of n = min(chunk_bytes, remaining) successive stream bytes and
decrease remaining by n. Returns the list of blocks written, or none when the
fuel runs out before the loop exits (the loop diverges for chunk_bytes = 0). -/
def wlfAux (stream : ℕ → ℕ) (chunk : ℕ) : ℕ → ℕ → ℕ → Option (List (List ℕ))
  | _, _, 0 => some []
  | 0, _, _ + 1 => none
  | fuel + 1, pos, r + 1 =>
    Option.map
      (fun rest => ((List.range (min chunk (r + 1))).map fun j => stream (pos + j)) :: rest)
      (wlfAux stream chunk fuel (pos + min chunk (r + 1)) (r + 1 - min chunk (r + 1)))

/-- Mirror of write_local_file: run the chunked write loop from position 0
with remaining = size_bytes. -/
def write_local_file (stream : ℕ → ℕ) (size_bytes chunk_bytes fuel : ℕ) :
    Option (List (List ℕ)) :=
  wlfAux stream chunk_bytes fuel 0 size_bytes

/-- The concatenation of all written blocks: the resulting file content. -/
def fileContent (stream : ℕ → ℕ) (size_bytes chunk_bytes fuel : ℕ) :
    Option (List ℕ) :=
  Option.map List.flatten (write_local_file stream size_bytes chunk_bytes fuel)

theorem range_map_split (stream : ℕ → ℕ) (pos n m : ℕ) :
    (List.range (n + m)).map (fun j => stream (pos + j)) =
      (List.range n).map (fun j => stream (pos + j)) ++
        (List.range m).map (fun j => stream (pos + n + j)) := by
  rw [List.range_add, List.map_append, List.map_map]
  congr 1
  refine List.map_congr_left ?_
  intro a _
  simp only [Function.comp]
  congr 1
  omega

theorem wlfAux_spec (stream : ℕ → ℕ) (chunk : ℕ) (hc : 1 ≤ chunk) :
    ∀ fuel pos remaining, remaining ≤ fuel →
      ∃ bs, wlfAux stream chunk fuel pos remaining = some bs ∧
        bs.flatten = (List.range remaining).map (fun j => stream (pos + j)) ∧
        bs.length = (remaining + chunk - 1) / chunk := by
  intro fuel
  induction fuel with
  | zero =>
    intro pos remaining hr
    have : remaining = 0 := Nat.le_zero.mp hr
    subst this
    refine ⟨[], rfl, by simp, ?_⟩
    have : chunk - 1 < chunk := by omega
    simp [Nat.div_eq_of_lt this]
  | succ fuel ih =>
    intro pos remaining hr
    match remaining with
    | 0 =>
      refine ⟨[], rfl, by simp, ?_⟩
      have : chunk - 1 < chunk := by omega
      simp [Nat.div_eq_of_lt this]
    | r + 1 =>
      have hn : 1 ≤ min chunk (r + 1) := by omega
      have hrec : r + 1 - min chunk (r + 1) ≤ fuel := by omega
      obtain ⟨bs, hbs, hflat, hlen⟩ :=
        ih (pos + min chunk (r + 1)) (r + 1 - min chunk (r + 1)) hrec
      refine ⟨_, by rw [wlfAux, hbs]; rfl, ?_, ?_⟩
      · simp only [List.flatten_cons, hflat]
        rw [← range_map_split stream pos (min chunk (r + 1)) (r + 1 - min chunk (r + 1))]
        have hsum : min chunk (r + 1) + (r + 1 - min chunk (r + 1)) = r + 1 := by omega
        rw [hsum]
      · simp only [List.length_cons, hlen]
        rcases Nat.le_total chunk (r + 1) with hle | hle
        · have h1 : min chunk (r + 1) = chunk := Nat.min_eq_left hle
          have h3 : r + 1 + chunk - 1 = r + (1 * chunk) := by omega
          rw [h1, h3, Nat.add_mul_div_right _ _ (by omega)]
          have h4 : r + 1 - chunk + chunk - 1 = r := by omega
          rw [h4]
        · have h1 : min chunk (r + 1) = r + 1 := Nat.min_eq_right hle
          have h2 : r + 1 - (r + 1) = 0 := by omega
          rw [h1, h2]
          have h3 : 0 + chunk - 1 < chunk := by omega
          rw [Nat.div_eq_of_lt h3]
          have h4 : r + 1 + chunk - 1 = r + (1 * chunk) := by omega
          rw [h4, Nat.add_mul_div_right _ _ (by omega)]
          have h5 : r / chunk = 0 := Nat.div_eq_of_lt (by omega)
          rw [h5]

/-- C5: for every byte stream, target size and pair of positive chunk sizes,
the generator produces exactly the first size bytes of the stream in both
cases: the content is byte-identical, of exactly the target size, and the
chunk size affects only write granularity. -/
theorem write_local_file_chunk_indep (stream : ℕ → ℕ) (size c1 c2 : ℕ)
    (h1 : 1 ≤ c1) (h2 : 1 ≤ c2) :
    fileContent stream size c1 size = some ((List.range size).map stream) ∧
    fileContent stream size c2 size = some ((List.range size).map stream) ∧
    ((List.range size).map stream).length = size := by
  have key : ∀ c, 1 ≤ c →
      fileContent stream size c size = some ((List.range size).map stream) := by
    intro c hcpos
    obtain ⟨bs, hbs, hflat, _⟩ := wlfAux_spec stream c hcpos size 0 size le_rfl
    have hmap : ((List.range size).map fun j => stream (0 + j)) =
        (List.range size).map stream := by
      refine List.map_congr_left ?_
      intro a _
      rw [Nat.zero_add]
    unfold fileContent write_local_file
    rw [hbs]
    show some bs.flatten = some ((List.range size).map stream)
    rw [hflat, hmap]
  exact ⟨key c1 h1, key c2 h2, by simp⟩

/-- Witness for C5: stream id, size 3, chunk sizes 1 and 2 give the stated
content. -/
theorem write_local_file_chunk_indep_witness :
    fileContent id 3 1 3 = some ((List.range 3).map id) :=
  (write_local_file_chunk_indep id 3 1 2 (by decide) (by decide)).1

theorem wlfAux_zero_chunk (stream : ℕ → ℕ) :
    ∀ fuel pos r, wlfAux stream 0 fuel pos (r + 1) = none := by
  intro fuel
  induction fuel with
  | zero => intro pos r; rfl
  | succ fuel ih =>
    intro pos r
    rw [wlfAux]
    have hmin : min 0 (r + 1) = 0 := by omega
    rw [hmin]
    simp only [Nat.add_zero, Nat.sub_zero]
    rw [ih pos r]
    rfl

/-- C10: with chunk_bytes >= 1 the write loop terminates for every size,
performing exactly ceil(size / chunk) writes; with chunk_bytes = 0 and a
positive size it diverges (no fuel bound suffices), so the precondition is
necessary. -/
theorem write_local_file_terminates (stream : ℕ → ℕ) (size chunk : ℕ)
    (h : 1 ≤ chunk) :
    (write_local_file stream size chunk size).map List.length =
      some ((size + chunk - 1) / chunk) ∧
    (∀ fuel, 0 < size → write_local_file stream size 0 fuel = none) := by
  constructor
  · obtain ⟨bs, hbs, _, hlen⟩ := wlfAux_spec stream chunk h size 0 size le_rfl
    unfold write_local_file
    rw [hbs]
    exact congrArg some hlen
  · intro fuel hsize
    unfold write_local_file
    cases size with
    | zero => omega
    | succ r => exact wlfAux_zero_chunk stream fuel 0 r

/-- Witness for C10: stream id, size 5, chunk 2 terminates with 3 writes. -/
theorem write_local_file_terminates_witness :
    (write_local_file id 5 2 5).map List.length = some ((5 + 2 - 1) / 2) :=
  (write_local_file_terminates id 5 2 (by decide)).1

/-- Mirror of the result-collection loop shared by the upload, stream-download
and ranged-read phases: total = 0, then for each future in completion order,
total += future.result(). -/
def collectTotal {K : Type} (op : K → ℕ) (completed : List K) : ℕ :=
  completed.foldl (fun acc k => acc + op k) 0

/-- The Stats value a phase returns: label, the collected byte total, and the
elapsed duration. -/
def phaseStats {K : Type} (label : List Char) (op : K → ℕ)
    (completed : List K) (elapsed : ℚ) : Stats :=
  { label := label, bytes_total := (collectTotal op completed : ℤ),
    seconds := elapsed }

theorem foldl_add_eq {K : Type} (op : K → ℕ) :
    ∀ (l : List K) (acc : ℕ),
      l.foldl (fun a k => a + op k) acc = acc + (l.map op).sum := by
  intro l
  induction l with
  | nil => intro acc; simp
  | cons k t ih =>
    intro acc
    simp only [List.foldl_cons, List.map_cons, List.sum_cons, ih]
    omega

/-- C7: the bytes_total of a phase's aggregate Stats equals the sum of the
per-key byte counts returned by the operation, for every completion order
(every permutation of the key list). -/
theorem phase_bytes_total_spec {K : Type} (label : List Char) (op : K → ℕ)
    (keys completed : List K) (elapsed : ℚ)
    (hperm : List.Perm completed keys) :
    (phaseStats label op completed elapsed).bytes_total =
      ((keys.map op).sum : ℤ) := by
  have h1 : collectTotal op completed = (completed.map op).sum := by
    simpa using foldl_add_eq op completed 0
  have h2 : (completed.map op).sum = (keys.map op).sum :=
    List.Perm.sum_eq (hperm.map op)
  simp [phaseStats, h1, h2]

/-- Witness for C7: keys 1, 2, 3 collected in order 3, 1, 2 report the sum. -/
theorem phase_bytes_total_spec_witness :
    (phaseStats [] (fun k => k) [3, 1, 2] 1).bytes_total =
      (([1, 2, 3].map (fun k => k)).sum : ℤ) :=
  phase_bytes_total_spec [] (fun k => k) [1, 2, 3] [3, 1, 2] 1 (by decide)

/-- Mirror of the result-collection loop when per-key operations may raise:
each future.result() call either yields a byte count, which is added to the
running total, or re-raises the operation's exception, which propagates
immediately out of the loop. -/
def collectResults {K E : Type} (op : K → Except E ℕ) (acc : ℕ) :
    List K → Except E ℕ
  | [] => Except.ok acc
  | k :: rest =>
    match op k with
    | Except.error e => Except.error e
    | Except.ok n => collectResults op (acc + n) rest

/-- Whether a phase outcome is an abort (an uncaught exception escaping the
collection loop, so no Stats value is produced) rather than a completion. -/
def phaseAborts {E : Type} (r : Except E ℕ) : Bool :=
  match r with
  | Except.error _ => true
  | Except.ok _ => false

theorem collectResults_error {K E : Type} (op : K → Except E ℕ) (k : K) (e : E)
    (hfail : op k = Except.error e) :
    ∀ (l : List K), k ∈ l → ∀ acc, phaseAborts (collectResults op acc l) = true := by
  intro l
  induction l with
  | nil => intro h; exact absurd h (List.not_mem_nil k)
  | cons a t ih =>
    intro hmem acc
    cases hop : op a with
    | error e2 => simp [collectResults, hop, phaseAborts]
    | ok n =>
      rcases List.mem_cons.mp hmem with rfl | hmem2
      · rw [hfail] at hop
        exact Except.noConfusion hop
      · simp only [collectResults, hop]
        exact ih hmem2 (acc + n)

/-- C8: if any single per-key operation in a concurrent phase raises, the
collection loop re-raises it whatever the completion order, aborting the phase
with no Stats produced, instead of silently skipping the failing key. -/
theorem phase_error_aborts {K E : Type} (op : K → Except E ℕ)
    (keys completed : List K) (hperm : List.Perm completed keys)
    (k : K) (hk : k ∈ keys) (e : E) (hfail : op k = Except.error e) :
    phaseAborts (collectResults op 0 completed) = true :=
  collectResults_error op k e hfail completed (hperm.mem_iff.mpr hk) 0

/-- Witness for C8: with key 2 failing among keys 1 and 2, the collection in
order 2, 1 aborts. -/
theorem phase_error_aborts_witness :
    phaseAborts (collectResults
      (fun k : ℕ => if k = 2 then Except.error 0 else Except.ok k) 0 [2, 1]) = true :=
  phase_error_aborts (fun k : ℕ => if k = 2 then Except.error 0 else Except.ok k)
    [1, 2] [2, 1] (by decide) 2 (by decide) 0 (by simp)
